import Mathlib

/-!
# Verification of the Basic_RAG_Pipeline retrieval core

The repository `Basic_RAG_Pipeline` is a notebook that wires external
library calls (llama_index) into a RAG pipeline: chunk documents, embed
the chunks, build a vector index, and answer queries by top-k retrieval.
The chunker, vector index and query engine themselves are not part of the
repository's sources; the specification describes their intended design.
This file embeds that design shallowly: the chunker as a window walk over
a token list, the index as an insertion-ordered list of (chunk, embedding)
pairs, and search as stable descending sort by similarity followed by
`take k`.  The notebook's own dataflow (in particular the unused
concatenated document) is embedded directly from the notebook cells.
-/

namespace RAG

/-- Error taxonomy of the pipeline (spec §7): bad chunk/overlap/k
parameters, empty input, external embedder failure, search-time
parameter or dimensionality mismatch, LLM failure. -/
inductive RagError where
  | InvalidConfiguration
  | EmptyInput
  | EmbeddingFailure
  | InvalidQuery
  | CollaboratorFailure
deriving DecidableEq, Repr

/-! ## Chunker -/

/-- Fuel-indexed window walk; the fuel only bounds the recursion depth and
is irrelevant as soon as it is at least the number of tokens
(`windowsFuel_congr`). -/
def windowsFuel (size step : Nat) : Nat → List α → List (List α)
  | 0, tokens => [tokens]
  | fuel + 1, tokens =>
    if tokens.length ≤ size ∨ step = 0 then [tokens]
    else tokens.take size :: windowsFuel size step fuel (tokens.drop step)

/-- Modelled from the spec (§4.1 Behavior), implementing the window walk of
`SimpleNodeParser.get_nodes_from_documents`, which is not in the repository
sources: produce successive windows of length `size` over the token list,
advancing the window start by `step` each iteration, until the remaining
tokens are exhausted; the final window may be shorter than `size`.  The
`step = 0` guard only makes the recursion obviously terminating; the
chunker below never calls `windows` with `step = 0`. -/
def windows (size step : Nat) (tokens : List α) : List (List α) :=
  windowsFuel size step tokens.length tokens

theorem windowsFuel_congr (size step : Nat) :
    ∀ (f1 f2 : Nat) (tokens : List α), tokens.length ≤ f1 → tokens.length ≤ f2 →
      windowsFuel size step f1 tokens = windowsFuel size step f2 tokens := by
  intro f1
  induction f1 with
  | zero =>
    intro f2 tokens h1 _
    have : tokens = [] := List.eq_nil_of_length_eq_zero (by omega)
    subst this
    cases f2 <;> simp [windowsFuel]
  | succ f1 ih =>
    intro f2 tokens h1 h2
    cases f2 with
    | zero =>
      have : tokens = [] := List.eq_nil_of_length_eq_zero (by omega)
      subst this
      simp [windowsFuel]
    | succ f2 =>
      show (if tokens.length ≤ size ∨ step = 0 then [tokens]
          else tokens.take size :: windowsFuel size step f1 (tokens.drop step)) =
        (if tokens.length ≤ size ∨ step = 0 then [tokens]
          else tokens.take size :: windowsFuel size step f2 (tokens.drop step))
      by_cases hc : tokens.length ≤ size ∨ step = 0
      · rw [if_pos hc, if_pos hc]
      · rw [if_neg hc, if_neg hc]
        push_neg at hc
        have hrec := ih f2 (tokens.drop step) (by simp; omega) (by simp; omega)
        rw [hrec]

/-- One-step unfolding of `windows`. -/
theorem windows_eq (size step : Nat) (tokens : List α) :
    windows size step tokens =
      if tokens.length ≤ size ∨ step = 0 then [tokens]
      else tokens.take size :: windows size step (tokens.drop step) := by
  show windowsFuel size step tokens.length tokens = _
  by_cases hc : tokens.length ≤ size ∨ step = 0
  · rw [if_pos hc]
    cases htl : tokens.length with
    | zero => rfl
    | succ n =>
      show (if tokens.length ≤ size ∨ step = 0 then [tokens] else _) = [tokens]
      rw [if_pos hc]
  · rw [if_neg hc]
    push_neg at hc
    obtain ⟨hlen, hstep⟩ := hc
    cases htl : tokens.length with
    | zero => omega
    | succ n =>
      show (if tokens.length ≤ size ∨ step = 0 then [tokens]
          else tokens.take size :: windowsFuel size step n (tokens.drop step)) = _
      rw [if_neg (by push_neg; exact ⟨hlen, hstep⟩)]
      congr 1
      exact windowsFuel_congr size step n (tokens.drop step).length (tokens.drop step)
        (by simp; omega) le_rfl

/-- Modelled from the spec (§4.1), implementing
`SimpleNodeParser.from_defaults(chunk_size, chunk_overlap)` followed by
`get_nodes_from_documents`, which are not in the repository sources:
validate the configuration (`chunk_size` positive, `overlap` non-negative
and `< chunk_size`), reject an empty document, then walk the token
sequence with window length `chunk_size` and stride
`chunk_size - overlap`. -/
def chunk (tokens : List String) (chunk_size overlap : Int) :
    Except RagError (List (List String)) :=
  if chunk_size ≤ 0 ∨ overlap < 0 ∨ chunk_size ≤ overlap then
    .error .InvalidConfiguration
  else if tokens = [] then
    .error .EmptyInput
  else
    .ok (windows chunk_size.toNat (chunk_size - overlap).toNat tokens)

/-- De-duplicating concatenation of chunk spans: the first chunk is kept
whole, every later chunk contributes its tokens after the first `overlap`
ones (the region shared with its predecessor). -/
def dedupConcat (overlap : Nat) : List (List α) → List α
  | [] => []
  | c :: cs => c ++ (cs.map (List.drop overlap)).flatten

/-- Tail part of `dedupConcat`: every chunk drops its first `overlap`
tokens. -/
def dedupTail (overlap : Nat) (cs : List (List α)) : List α :=
  (cs.map (List.drop overlap)).flatten

theorem dedupConcat_cons (overlap : Nat) (c : List α) (cs : List (List α)) :
    dedupConcat overlap (c :: cs) = c ++ dedupTail overlap cs := rfl

theorem windows_ne_nil (size step : Nat) (tokens : List α) :
    windows size step tokens ≠ [] := by
  rw [windows_eq]
  split <;> simp

/-- Dropping the overlap from every window of `windows size step s` and
concatenating yields `s.drop (size - step)`. -/
theorem dedupTail_windows (size step : Nat) (hs : 0 < step) (hss : step ≤ size)
    (s : List α) : dedupTail (size - step) (windows size step s) = s.drop (size - step) := by
  suffices h : ∀ n (s : List α), s.length = n →
      dedupTail (size - step) (windows size step s) = s.drop (size - step) from
    h s.length s rfl
  intro n
  induction n using Nat.strong_induction_on with
  | _ n ih =>
    intro s hn
    rw [windows_eq]
    by_cases hle : s.length ≤ size ∨ step = 0
    · rw [if_pos hle]
      simp [dedupTail]
    · rw [if_neg hle]
      push_neg at hle
      obtain ⟨hlen, -⟩ := hle
      have hrec : dedupTail (size - step) (windows size step (s.drop step)) =
          (s.drop step).drop (size - step) := by
        refine ih (s.drop step).length ?_ _ rfl
        subst hn
        simp only [List.length_drop]
        omega
      show ((s.take size).drop (size - step)) ++
          dedupTail (size - step) (windows size step (s.drop step)) = s.drop (size - step)
      rw [hrec, List.drop_take, List.drop_drop]
      have h1 : size - (size - step) = step := by omega
      have h2 : step + (size - step) = size := by omega
      rw [h1, h2]
      have hd : s.drop size = (s.drop (size - step)).drop step := by
        rw [List.drop_drop]
        congr 1
        omega
      rw [hd]
      exact List.take_append_drop _ _

/-- Concatenating the chunk spans of `windows`, de-duplicating the
overlapped regions, reconstructs the token list exactly. -/
theorem dedupConcat_windows (size step : Nat) (hs : 0 < step) (hss : step ≤ size)
    (s : List α) : dedupConcat (size - step) (windows size step s) = s := by
  rw [windows_eq]
  by_cases hle : s.length ≤ size ∨ step = 0
  · rw [if_pos hle]
    simp [dedupConcat]
  · rw [if_neg hle]
    push_neg at hle
    obtain ⟨hlen, -⟩ := hle
    rw [dedupConcat_cons, dedupTail_windows size step hs hss]
    rw [List.drop_drop]
    have h2 : step + (size - step) = size := by omega
    rw [h2]
    exact List.take_append_drop _ _

/-- The `i`-th window of `windows size step tokens` is the `size`-token
slice of `tokens` starting at offset `i * step` (a shorter slice at the
end of the list). -/
theorem windows_getElem? (size step : Nat) (hs : 0 < step) :
    ∀ (i : Nat) (tokens : List α), i < (windows size step tokens).length →
      (windows size step tokens)[i]? = some ((tokens.drop (i * step)).take size) := by
  intro i
  induction i with
  | zero =>
    intro tokens _
    by_cases hc : tokens.length ≤ size ∨ step = 0
    · rw [windows_eq, if_pos hc]
      have hlen : tokens.length ≤ size := by
        rcases hc with hc | hc
        · exact hc
        · omega
      simp [List.take_of_length_le hlen]
    · rw [windows_eq, if_neg hc]
      simp
  | succ i ih =>
    intro tokens h
    by_cases hc : tokens.length ≤ size ∨ step = 0
    · rw [windows_eq, if_pos hc] at h
      simp at h
    · rw [windows_eq, if_neg hc] at h ⊢
      simp only [List.getElem?_cons_succ]
      rw [ih (tokens.drop step) (by simpa using h)]
      rw [List.drop_drop]
      congr 3
      ring

/-- Every window of `windows size step tokens` except the last has exactly
`size` tokens. -/
theorem windows_not_last_length (size step : Nat) :
    ∀ (i : Nat) (tokens : List α), i + 1 < (windows size step tokens).length →
      ∃ w, (windows size step tokens)[i]? = some w ∧ w.length = size := by
  intro i
  induction i with
  | zero =>
    intro tokens h
    by_cases hc : tokens.length ≤ size ∨ step = 0
    · rw [windows_eq, if_pos hc] at h
      simp at h
    · rw [windows_eq, if_neg hc]
      push_neg at hc
      refine ⟨tokens.take size, by simp, ?_⟩
      simp only [List.length_take]
      omega
  | succ i ih =>
    intro tokens h
    by_cases hc : tokens.length ≤ size ∨ step = 0
    · rw [windows_eq, if_pos hc] at h
      simp at h
    · rw [windows_eq, if_neg hc] at h ⊢
      simp only [List.getElem?_cons_succ]
      exact ih (tokens.drop step) (by simpa using h)

/-- Inversion of `chunk`: a successful run certifies the validity of the
configuration and exposes the window walk. -/
theorem chunk_eq_ok {tokens : List String} {cs ov : Int} {chunks : List (List String)}
    (h : chunk tokens cs ov = .ok chunks) :
    0 < cs ∧ 0 ≤ ov ∧ ov < cs ∧ tokens ≠ [] ∧
      chunks = windows cs.toNat (cs - ov).toNat tokens := by
  unfold chunk at h
  split at h
  · exact absurd h (by simp)
  · rename_i hcond
    push_neg at hcond
    split at h
    · exact absurd h (by simp)
    · rename_i hne
      refine ⟨by omega, by omega, by omega, hne, ?_⟩
      simpa using h.symm

/-- C1: for every non-empty document and every valid configuration
(`chunk_size` a positive integer, `overlap` a non-negative integer with
`overlap < chunk_size`), the chunker's output chunks fully cover the
document with no gaps: concatenating the chunk spans, de-duplicating the
overlapped regions, reconstructs the document exactly.  (Every successful
run of `chunk` certifies exactly these preconditions.) -/
theorem chunk_coverage (tokens : List String) (cs ov : Int)
    (chunks : List (List String)) (h : chunk tokens cs ov = .ok chunks) :
    dedupConcat ov.toNat chunks = tokens := by
  obtain ⟨hcs, hov0, hovcs, -, hch⟩ := chunk_eq_ok h
  subst hch
  have hsz : ov.toNat = cs.toNat - (cs - ov).toNat := by omega
  rw [hsz]
  exact dedupConcat_windows cs.toNat (cs - ov).toNat (by omega) (by omega) tokens

theorem chunk_coverage_witness :
    dedupConcat (Int.toNat 1) [["A", "B"], ["B", "C"]] = ["A", "B", "C"] :=
  chunk_coverage ["A", "B", "C"] 2 1 [["A", "B"], ["B", "C"]] rfl

/-- C2: for every document and valid configuration the chunker produces
successive windows of length `chunk_size` over the token sequence,
advancing the window start by `chunk_size - overlap` each step, with only
the final window possibly shorter; for the document "A B C D E F"
tokenized by word, `chunk_size = 2` and `overlap = 0` yields the chunks
["A B", "C D", "E F"], and `chunk_size = 2`, `overlap = 1` yields
["A B", "B C", "C D", "D E", "E F"]. -/
theorem chunk_windows_spec :
    (∀ (tokens : List String) (cs ov : Int) (l : List (List String)),
        chunk tokens cs ov = .ok l →
          (∀ i : Nat, i < l.length →
              l[i]? = some ((tokens.drop (i * (cs - ov).toNat)).take cs.toNat)) ∧
          (∀ i : Nat, i + 1 < l.length →
              ∃ w, l[i]? = some w ∧ w.length = cs.toNat)) ∧
    chunk ["A", "B", "C", "D", "E", "F"] 2 0 =
      .ok [["A", "B"], ["C", "D"], ["E", "F"]] ∧
    chunk ["A", "B", "C", "D", "E", "F"] 2 1 =
      .ok [["A", "B"], ["B", "C"], ["C", "D"], ["D", "E"], ["E", "F"]] := by
  refine ⟨?_, by rfl, by rfl⟩
  intro tokens cs ov l h
  obtain ⟨hcs, hov0, hovcs, -, hch⟩ := chunk_eq_ok h
  subst hch
  constructor
  · intro i hi
    exact windows_getElem? cs.toNat (cs - ov).toNat (by omega) i tokens hi
  · intro i hi
    exact windows_not_last_length cs.toNat (cs - ov).toNat i tokens hi

theorem chunk_windows_spec_witness :
    ([["A", "B"], ["C", "D"], ["E", "F"]] : List (List String))[1]? =
      some (((["A", "B", "C", "D", "E", "F"] : List String).drop
        (1 * ((2 : Int) - 0).toNat)).take (2 : Int).toNat) :=
  (chunk_windows_spec.1 ["A", "B", "C", "D", "E", "F"] 2 0
    [["A", "B"], ["C", "D"], ["E", "F"]] rfl).1 1 (by decide)

/-- C3: for every `chunk_size` and `overlap` with `overlap ≥ chunk_size`,
and for every `chunk_size ≤ 0`, the chunk operation fails with
`InvalidConfiguration` and returns no chunk sequence. -/
theorem chunk_invalid_configuration (tokens : List String) (cs ov : Int)
    (h : cs ≤ ov ∨ cs ≤ 0) :
    chunk tokens cs ov = .error .InvalidConfiguration := by
  unfold chunk
  have hc : cs ≤ 0 ∨ ov < 0 ∨ cs ≤ ov := by omega
  rw [if_pos hc]

theorem chunk_invalid_configuration_witness :
    chunk ["A", "B"] 2 2 = .error .InvalidConfiguration ∧
    chunk ["A", "B"] 0 0 = .error .InvalidConfiguration :=
  ⟨chunk_invalid_configuration ["A", "B"] 2 2 (Or.inl (by omega)),
   chunk_invalid_configuration ["A", "B"] 0 0 (Or.inr (by omega))⟩

/-! ## Vector index -/

/-- A chunk ("node"): the unit of retrieval (spec §3). -/
structure Chunk where
  id : Nat
  text : String
deriving DecidableEq, Repr

/-- An embedding: an ordered sequence of numbers associated with a chunk
(spec §3); rationals stand in for the floating-point coordinates. -/
abbrev Embedding := List ℚ

/-- Modelled from the spec (§4.2 `build`), the embedding loop of
`VectorStoreIndex(nodes)`, which is not in the repository sources: compute
one embedding per chunk via the external embedder, keeping insertion
order; the first embedder failure aborts the whole computation. -/
def embedAll (embedder : Chunk → Option Embedding) :
    List Chunk → Option (List (Chunk × Embedding))
  | [] => some []
  | c :: cs =>
    match embedder c, embedAll embedder cs with
    | some e, some rest => some ((c, e) :: rest)
    | _, _ => none

/-- The index: insertion-ordered (Chunk, Embedding) pairs (spec §3). -/
structure Index where
  entries : List (Chunk × Embedding)
deriving DecidableEq, Repr

/-- The index's embedding dimensionality: the length of its stored
embeddings, taken from the first entry. -/
def Index.dim (ix : Index) : Nat :=
  match ix.entries with
  | [] => 0
  | (_, e) :: _ => e.length

/-- Modelled from the spec (§4.2 `build`), implementing
`VectorStoreIndex(nodes)`, which is not in the repository sources: store
one (Chunk, Embedding) pair per chunk in insertion order; fail with
`EmbeddingFailure`, producing no partial index, if the embedder errors on
any chunk. -/
def build (chunks : List Chunk) (embedder : Chunk → Option Embedding) :
    Except RagError Index :=
  match embedAll embedder chunks with
  | none => .error .EmbeddingFailure
  | some pairs => .ok ⟨pairs⟩

/-- Descending order on scored chunks: `a` may precede `b` when `b`'s
score does not exceed `a`'s.  Inserting with this relation places an
element before equal scores, so insertion sort keeps equal-score entries
in insertion order. -/
def scoreGE (a b : Chunk × ℚ) : Prop := b.2 ≤ a.2

instance : DecidableRel scoreGE :=
  fun a b => inferInstanceAs (Decidable (b.2 ≤ a.2))

instance : IsTotal (Chunk × ℚ) scoreGE :=
  ⟨fun a b => le_total b.2 a.2⟩

instance : IsTrans (Chunk × ℚ) scoreGE :=
  ⟨fun _ _ _ h1 h2 => le_trans h2 h1⟩

/-- Every stored chunk scored against the query vector. -/
def scored (sim : Embedding → Embedding → ℚ) (ix : Index) (q : Embedding) :
    List (Chunk × ℚ) :=
  ix.entries.map (fun ce => (ce.1, sim q ce.2))

/-- Modelled from the spec (§4.2 `search`), implementing the retriever
behind `index.as_query_engine()`, which is not in the repository sources:
validate `k` and the query dimensionality, score every stored embedding
against the query with the similarity function `sim`, and return the top
`k` scored chunks in descending score order, ties in insertion order
(stable sort).  The spec fixes `sim` to cosine similarity; the retrieval
contract is stated for the supplied similarity function. -/
def search (sim : Embedding → Embedding → ℚ) (ix : Index) (q : Embedding)
    (k : Int) : Except RagError (List (Chunk × ℚ)) :=
  if k ≤ 0 ∨ q.length ≠ ix.dim then .error .InvalidQuery
  else .ok ((List.insertionSort scoreGE (scored sim ix q)).take k.toNat)

/-- Modelled from the spec (§4.2): the number of retrieved chunks when no
`k` is supplied (the `similarity_top_k` default of `as_query_engine`,
documented in the notebook as retrieving two chunks by default). -/
def defaultTopK : Int := 2

/-- Search with the default `k`. -/
def searchDefault (sim : Embedding → Embedding → ℚ) (ix : Index)
    (q : Embedding) : Except RagError (List (Chunk × ℚ)) :=
  search sim ix q defaultTopK

/-- The Boolean test "this scored chunk has score `s`". -/
def hasScore (s : ℚ) (y : Chunk × ℚ) : Bool := decide (y.2 = s)

theorem filter_orderedInsert (s : ℚ) (x : Chunk × ℚ) :
    ∀ L : List (Chunk × ℚ),
      (L.orderedInsert scoreGE x).filter (hasScore s) =
        if hasScore s x then x :: L.filter (hasScore s) else L.filter (hasScore s)
  | [] => by
    simp [List.orderedInsert, List.filter_cons]
  | y :: ys => by
    by_cases hxy : scoreGE x y
    · rw [List.orderedInsert_of_le scoreGE ys hxy]
      simp [List.filter_cons]
    · have hlt : x.2 < y.2 := by
        simpa [scoreGE, not_le] using hxy
      have hins : List.orderedInsert scoreGE x (y :: ys) =
          y :: List.orderedInsert scoreGE x ys := by
        simp [List.orderedInsert, hxy]
      rw [hins, List.filter_cons, filter_orderedInsert s x ys]
      by_cases hpx : hasScore s x
      · have hpy : hasScore s y = false := by
          simp only [hasScore, decide_eq_false_iff_not]
          intro hy2
          have hx2 : x.2 = s := of_decide_eq_true hpx
          rw [hy2, ← hx2] at hlt
          exact lt_irrefl _ hlt
        simp [List.filter_cons, hpx, hpy]
      · simp only [Bool.not_eq_true] at hpx
        simp [List.filter_cons, hpx]

/-- Insertion sort with `scoreGE` is stable: the entries carrying any
fixed score appear in the sorted list exactly in their original order. -/
theorem filter_insertionSort (s : ℚ) :
    ∀ L : List (Chunk × ℚ),
      (List.insertionSort scoreGE L).filter (hasScore s) = L.filter (hasScore s)
  | [] => rfl
  | y :: ys => by
    show ((List.insertionSort scoreGE ys).orderedInsert scoreGE y).filter (hasScore s) = _
    rw [filter_orderedInsert s y (List.insertionSort scoreGE ys),
      filter_insertionSort s ys, List.filter_cons]

/-- Inversion of `search`: a successful run certifies the validity of `k`
and of the query dimensionality, and exposes the sorted prefix. -/
theorem search_eq_ok {sim : Embedding → Embedding → ℚ} {ix : Index}
    {q : Embedding} {k : Int} {r : List (Chunk × ℚ)}
    (h : search sim ix q k = .ok r) :
    0 < k ∧ q.length = ix.dim ∧
      r = (List.insertionSort scoreGE (scored sim ix q)).take k.toNat := by
  unfold search at h
  split at h
  · exact absurd h (by simp)
  · rename_i hc
    push_neg at hc
    exact ⟨by omega, hc.2, by simpa using h.symm⟩

/-- C4: for every built index, query vector `q` and positive `k`,
`search` returns at most `k` results sorted by non-increasing similarity
score; when `k` is at least the number of indexed chunks it returns all
stored chunks (a permutation of the scored entries); and equal-score ties
appear in the chunks' original insertion order (stable sort): the
returned entries carrying any fixed score form, in order, a sublist of
the scored entries carrying that score. -/
theorem search_topk (sim : Embedding → Embedding → ℚ) (ix : Index)
    (q : Embedding) (k : Int) (r : List (Chunk × ℚ))
    (h : search sim ix q k = .ok r) :
    r.length ≤ k.toNat ∧
    r.Pairwise (fun a b => b.2 ≤ a.2) ∧
    (ix.entries.length ≤ k.toNat → r.Perm (scored sim ix q)) ∧
    (∀ s : ℚ, List.Sublist (r.filter (hasScore s))
      ((scored sim ix q).filter (hasScore s))) := by
  obtain ⟨hk, hdim, hr⟩ := search_eq_ok h
  subst hr
  have hperm : (List.insertionSort scoreGE (scored sim ix q)).Perm (scored sim ix q) :=
    List.perm_insertionSort scoreGE (scored sim ix q)
  have hsorted : (List.insertionSort scoreGE (scored sim ix q)).Pairwise scoreGE :=
    List.sorted_insertionSort scoreGE (scored sim ix q)
  refine ⟨?_, ?_, ?_, ?_⟩
  · exact List.length_take_le _ _
  · exact hsorted.sublist (List.take_sublist _ _)
  · intro hn
    have hlen : (List.insertionSort scoreGE (scored sim ix q)).length ≤ k.toNat := by
      rw [hperm.length_eq]
      simpa [scored] using hn
    rw [List.take_of_length_le hlen]
    exact hperm
  · intro s
    rw [← filter_insertionSort s (scored sim ix q)]
    exact (List.take_sublist _ _).filter (hasScore s)

/-- Constant similarity function used for concrete evaluations; its ties
exercise the stable ordering. -/
def simZero : Embedding → Embedding → ℚ := fun _ _ => 0

def chunkA : Chunk := ⟨0, "a"⟩

def chunkB : Chunk := ⟨1, "b"⟩

/-- A two-chunk index over two-dimensional embeddings. -/
def ixTwo : Index := ⟨[(chunkA, [1, 0]), (chunkB, [0, 1])]⟩

theorem search_topk_witness :
    search simZero ixTwo [1, 0] 1 = .ok [(chunkA, 0)] ∧
    ([(chunkA, (0 : ℚ))] : List (Chunk × ℚ)).length ≤ (1 : Int).toNat :=
  ⟨by rfl, (search_topk simZero ixTwo [1, 0] 1 [(chunkA, 0)] (by rfl)).1⟩

/-- C5: for every built index, `search` fails with `InvalidQuery` when
`k ≤ 0` or when the query vector's dimensionality differs from the
index's embedding dimensionality; in particular, `search` called with
`k = 0` fails with `InvalidQuery` for every index and query vector. -/
theorem search_invalid_query :
    (∀ (sim : Embedding → Embedding → ℚ) (ix : Index) (q : Embedding) (k : Int),
        k ≤ 0 ∨ q.length ≠ ix.dim → search sim ix q k = .error .InvalidQuery) ∧
    (∀ (sim : Embedding → Embedding → ℚ) (ix : Index) (q : Embedding),
        search sim ix q 0 = .error .InvalidQuery) := by
  have hmain : ∀ (sim : Embedding → Embedding → ℚ) (ix : Index) (q : Embedding)
      (k : Int), k ≤ 0 ∨ q.length ≠ ix.dim →
      search sim ix q k = .error .InvalidQuery := by
    intro sim ix q k h
    unfold search
    rw [if_pos h]
  exact ⟨hmain, fun sim ix q => hmain sim ix q 0 (Or.inl le_rfl)⟩

theorem search_invalid_query_witness :
    search simZero ixTwo [1, 0] 0 = .error .InvalidQuery :=
  search_invalid_query.2 simZero ixTwo [1, 0]

/-- C6: the default `k` is 2, and a query (of matching dimensionality)
against an index holding at least two chunks retrieves exactly two
chunks when no `k` is supplied. -/
theorem searchDefault_retrieves_two :
    defaultTopK = 2 ∧
    ∀ (sim : Embedding → Embedding → ℚ) (ix : Index) (q : Embedding),
      q.length = ix.dim → 2 ≤ ix.entries.length →
      ∃ r, searchDefault sim ix q = .ok r ∧ r.length = 2 := by
  refine ⟨rfl, ?_⟩
  intro sim ix q hq h2
  refine ⟨(List.insertionSort scoreGE (scored sim ix q)).take 2, ?_, ?_⟩
  · unfold searchDefault search
    rw [if_neg (by push_neg; exact ⟨by norm_num [defaultTopK], hq⟩)]
    rfl
  · rw [List.length_take, (List.perm_insertionSort scoreGE _).length_eq]
    simp only [scored, List.length_map]
    omega

theorem searchDefault_retrieves_two_witness :
    ∃ r, searchDefault simZero ixTwo [1, 0] = .ok r ∧ r.length = 2 :=
  searchDefault_retrieves_two.2 simZero ixTwo [1, 0] (by decide) (by decide)

/-- `embedAll` fails as soon as the embedder fails on a member. -/
theorem embedAll_eq_none {embedder : Chunk → Option Embedding} {c : Chunk} :
    ∀ {chunks : List Chunk}, c ∈ chunks → embedder c = none →
      embedAll embedder chunks = none := by
  intro chunks
  induction chunks with
  | nil => intro h; exact absurd h (List.not_mem_nil c)
  | cons a rest ih =>
    intro hmem he
    rcases List.mem_cons.mp hmem with rfl | hmem
    · show (match embedder c, embedAll embedder rest with
        | some e, some r => some ((c, e) :: r)
        | _, _ => none) = none
      rw [he]
    · show (match embedder a, embedAll embedder rest with
        | some e, some r => some ((a, e) :: r)
        | _, _ => none) = none
      rw [ih hmem he]
      cases embedder a <;> rfl

/-- C7: if the embedder errors on any chunk of the sequence, `build`
fails with `EmbeddingFailure` and produces no index at all: the result is
the bare error, so no partial index of the successfully embedded chunks
is returned or retained. -/
theorem build_embedding_failure (chunks : List Chunk)
    (embedder : Chunk → Option Embedding) (c : Chunk)
    (hc : c ∈ chunks) (he : embedder c = none) :
    build chunks embedder = .error .EmbeddingFailure := by
  unfold build
  rw [embedAll_eq_none hc he]

/-- An embedder that fails on every chunk. -/
def embedNone : Chunk → Option Embedding := fun _ => none

theorem build_embedding_failure_witness :
    build [chunkA] embedNone = .error .EmbeddingFailure :=
  build_embedding_failure [chunkA] embedNone chunkA (by decide) rfl

/-- C8: building an index twice from the same chunk sequence and the same
(deterministic) embedder yields indexes with identical stored entries,
embeddings included. -/
theorem build_deterministic (chunks : List Chunk)
    (embedder : Chunk → Option Embedding) (ix1 ix2 : Index)
    (h1 : build chunks embedder = .ok ix1)
    (h2 : build chunks embedder = .ok ix2) :
    ix1.entries = ix2.entries := by
  rw [h1] at h2
  injection h2 with h
  rw [h]

/-- An embedder that succeeds on every chunk. -/
def embedOne : Chunk → Option Embedding := fun _ => some [1]

theorem build_deterministic_witness :
    (⟨[(chunkA, [1])]⟩ : Index).entries = (⟨[(chunkA, [1])]⟩ : Index).entries :=
  build_deterministic [chunkA] embedOne ⟨[(chunkA, [1])]⟩ ⟨[(chunkA, [1])]⟩ rfl rfl

/-- Modelled from the spec (§5): `search` as a state-passing operation on
the index, making explicit which index the caller holds afterwards. -/
def searchOp (sim : Embedding → Embedding → ℚ) (q : Embedding) (k : Int)
    (ix : Index) : Except RagError (List (Chunk × ℚ)) × Index :=
  (search sim ix q k, ix)

/-- Modelled from the spec (§4.3 `query`): embed the question via the
external embedder, search the index, hand the question and the retrieved
chunk texts in ranked order to the external LLM, and return the answer
together with the retrieved chunks; as a state-passing operation on the
index. -/
def queryOp (embedQ : String → Option Embedding)
    (sim : Embedding → Embedding → ℚ) (llm : String → List String → String)
    (question : String) (k : Int) (ix : Index) :
    Except RagError (String × List (Chunk × ℚ)) × Index :=
  (match embedQ question with
   | none => .error .EmbeddingFailure
   | some qv =>
     match search sim ix qv k with
     | .error e => .error e
     | .ok r => .ok (llm question (r.map (fun cr => cr.1.text)), r),
   ix)

/-- C9: the index is immutable after build: `search` and `query` leave
the stored (Chunk, Embedding) pairs — hence their count and their order —
unchanged; no post-build operation adds, deletes or modifies stored
entries. -/
theorem index_immutable_post_build (sim : Embedding → Embedding → ℚ)
    (q : Embedding) (k : Int) (embedQ : String → Option Embedding)
    (llm : String → List String → String) (question : String) (ix : Index) :
    (searchOp sim q k ix).2 = ix ∧
    (queryOp embedQ sim llm question k ix).2 = ix ∧
    (searchOp sim q k ix).2.entries = ix.entries ∧
    (queryOp embedQ sim llm question k ix).2.entries = ix.entries :=
  ⟨rfl, rfl, rfl, rfl⟩

/-! ## The notebook's dataflow -/

/-- A document as produced by `SimpleDirectoryReader(...).load_data()`:
its raw text. -/
structure Document where
  text : String
deriving DecidableEq, Repr

/-- Word tokenization of a document's text. -/
def tokenize (s : String) : List String := s.splitOn " "

/-- Notebook cell `b4abc806`:
`document = Document(text="\n\n".join([doc.text for doc in documents]))`,
the Document concatenating all loaded documents' texts with a blank
line. -/
def concatDocument (docs : List Document) : Document :=
  ⟨String.intercalate "\n\n" (docs.map Document.text)⟩

/-- Notebook cell `7620d382`, `nodes = node_parser.get_nodes_from_documents(documents)`
with `chunk_size=64, chunk_overlap=2`: chunk every loaded document and
concatenate the per-document node lists; any chunking error aborts. -/
def nodesOfDocs : List Document → Except RagError (List (List String))
  | [] => .ok []
  | d :: ds =>
    match chunk (tokenize d.text) 64 2, nodesOfDocs ds with
    | .ok ns, .ok rest => .ok (ns ++ rest)
    | .error e, _ => .error e
    | _, .error e => .error e

/-- Number the nodes in order and rejoin each node's tokens into its
text, giving the chunks stored by the index. -/
def chunksOfNodes (nodes : List (List String)) : List Chunk :=
  ((List.range nodes.length).zip nodes).map
    (fun p => ⟨p.1, String.intercalate " " p.2⟩)

/-- The notebook pipeline as written (cells `101152e6` through
`6b0d5b6e`): load `documents`, bind the concatenated `document`
(cell `b4abc806`), then build the nodes and the index from the original
`documents` list — `document` is never consulted, exactly as in the
notebook — and answer a query with the default `k`. -/
def pipelineWithConcat (docs : List Document)
    (embedder : Chunk → Option Embedding) (sim : Embedding → Embedding → ℚ)
    (qv : Embedding) : Except RagError (List (Chunk × ℚ)) :=
  let _document := concatDocument docs
  match nodesOfDocs docs with
  | .error e => .error e
  | .ok nodes =>
    match build (chunksOfNodes nodes) embedder with
    | .error e => .error e
    | .ok ix => searchDefault sim ix qv

/-- The same pipeline with the concatenation step removed. -/
def pipelineWithoutConcat (docs : List Document)
    (embedder : Chunk → Option Embedding) (sim : Embedding → Embedding → ℚ)
    (qv : Embedding) : Except RagError (List (Chunk × ℚ)) :=
  match nodesOfDocs docs with
  | .error e => .error e
  | .ok nodes =>
    match build (chunksOfNodes nodes) embedder with
    | .error e => .error e
    | .ok ix => searchDefault sim ix qv

/-- C10: the concatenated Document built by joining all loaded documents'
texts with "\n\n" is never used in index construction: nodes, index and
every query result are computed from the original loaded document list
alone, so the pipeline's observable behavior is identical whether or not
the concatenation step is performed. -/
theorem concat_document_unused (docs : List Document)
    (embedder : Chunk → Option Embedding) (sim : Embedding → Embedding → ℚ)
    (qv : Embedding) :
    pipelineWithConcat docs embedder sim qv =
      pipelineWithoutConcat docs embedder sim qv := rfl

end RAG
